import Mathlib

/-!
Verification of the realmpipe proxy core against its specification.

The Rust sources are shallowly embedded: byte buffers are lists of natural
numbers (each byte < 256), machine integers are naturals reduced modulo
2 ^ width where overflow matters, fallible operations return Except or an
explicit outcome type, and the RC4 stream cipher is modelled by its standard
key schedule and generation algorithm as implemented by the rust-crypto
crate used in src/src/net/proxy/codec.rs.
-/

deriving instance DecidableEq for Except

namespace Realmpipe

/-! ## Big-endian byte encoding (adapters/primitives.rs: to_be_bytes / from_be_bytes) -/

/-- Big-endian bytes of a value, fixed width in bytes.  Mirrors Rust
to_be_bytes on an unsigned integer of the given byte width (values are
reduced modulo 256 per output byte, matching the machine representation). -/
def toBE : Nat → Nat → List Nat
  | 0, _ => []
  | w + 1, v => toBE w (v / 256) ++ [v % 256]

/-- Big-endian value of a byte list.  Mirrors Rust from_be_bytes. -/
def fromBE (l : List Nat) : Nat :=
  l.foldl (fun acc b => acc * 256 + b) 0

/-! ## RC4 stream cipher (rust-crypto crate, as used by the frame codecs)

State: a 256-entry permutation table plus two indices.  Bytes are naturals;
all index arithmetic is reduced modulo 256, matching wrapping u8 arithmetic.
-/

/-- RC4 cipher state: table s (256 entries) and indices i, j. -/
structure Rc4 where
  s : List Nat
  i : Nat
  j : Nat
deriving DecidableEq

/-- Swap two positions of the state table (slice::swap). -/
def listSwap (s : List Nat) (a b : Nat) : List Nat :=
  (s.set a (s.getD b 0)).set b (s.getD a 0)

/-- One step of the RC4 key schedule:
j = j + s of i + key of (i mod key length), then swap entries i and j. -/
def ksaStep (key : List Nat) (sj : List Nat × Nat) (i : Nat) : List Nat × Nat :=
  let j := (sj.2 + sj.1.getD i 0 + key.getD (i % key.length) 0) % 256
  (listSwap sj.1 i j, j)

/-- Rc4::new — identity table, then 256 key-schedule rounds. -/
def rc4Init (key : List Nat) : Rc4 :=
  let sj := (List.range 256).foldl (ksaStep key) (List.range 256, 0)
  { s := sj.1, i := 0, j := 0 }

/-- Rc4::next — advance the generator and produce one keystream byte. -/
def rc4Next (st : Rc4) : Rc4 × Nat :=
  let i := (st.i + 1) % 256
  let j := (st.j + st.s.getD i 0) % 256
  let s := listSwap st.s i j
  let k := s.getD ((s.getD i 0 + s.getD j 0) % 256) 0
  ({ s := s, i := i, j := j }, k)

/-- Rc4::process — XOR the keystream over the input, returning the advanced
cipher state and the output bytes. -/
def rc4Process (st : Rc4) : List Nat → Rc4 × List Nat
  | [] => (st, [])
  | x :: xs =>
    let next := rc4Next st
    let rest := rc4Process next.1 xs
    (rest.1, (x ^^^ next.2) :: rest.2)

/-! ## Field codec (core/src/adapters): NetworkAdapter get_be / put_be

A readable source is a list of bytes consumed from the front; get functions
return the decoded value together with the unread remainder.  A writable
sink is a list of bytes; put functions return the sink after the call
together with an optional error, so that partial writes stay observable.
-/

/-- adapters::Error.  The failure::Error payload of Other is modelled by its
display string. -/
inductive AdapterError
  | InsufficientData (remaining needed : Nat)
  | InvalidData (msg : String)
  | Other (msg : String)
deriving DecidableEq

/-- get_be for a fixed-width big-endian unsigned primitive of w bytes
(adapters/primitives.rs auto_adapters macro): check remaining, then read. -/
def getPrim (w : Nat) (l : List Nat) : Except AdapterError (Nat × List Nat) :=
  if l.length < w then .error (.InsufficientData l.length w)
  else .ok (fromBE (l.take w), l.drop w)

/-- put_be for a fixed-width primitive: append the big-endian bytes.  Never
fails. -/
def putPrim (w : Nat) (v : Nat) (sink : List Nat) : List Nat × Option AdapterError :=
  (sink ++ toBE w v, none)

/-- get_be for bool: one byte, nonzero decodes to true. -/
def getBool (l : List Nat) : Except AdapterError (Bool × List Nat) :=
  match getPrim 1 l with
  | .error e => .error e
  | .ok (v, rest) => .ok (v != 0, rest)

/-- put_be for bool: self as u8, so true writes 1 and false writes 0. -/
def putBool (b : Bool) (sink : List Nat) : List Nat × Option AdapterError :=
  putPrim 1 (if b then 1 else 0) sink

/-- An element codec: the pair of get_be and put_be of some NetworkAdapter
instance, used as the item type of an RLE sequence. -/
structure ElemCodec (α : Type) where
  get : List Nat → Except AdapterError (α × List Nat)
  put : α → List Nat → List Nat × Option AdapterError

/-- The u8 item codec. -/
def u8Codec : ElemCodec Nat :=
  { get := getPrim 1, put := putPrim 1 }

/-- Decode a fixed number of items in order ((0..len).map get_be collect). -/
def getMany {α : Type} (c : ElemCodec α) : Nat → List Nat → Except AdapterError (List α × List Nat)
  | 0, l => .ok ([], l)
  | n + 1, l =>
    match c.get l with
    | .error e => .error e
    | .ok (x, l1) =>
      match getMany c n l1 with
      | .error e => .error e
      | .ok (xs, l2) => .ok (x :: xs, l2)

/-- Encode items in order, stopping at the first error (try_for_each). -/
def putMany {α : Type} (c : ElemCodec α) : List α → List Nat → List Nat × Option AdapterError
  | [], sink => (sink, none)
  | x :: xs, sink =>
    match c.put x sink with
    | (sink1, none) => putMany c xs sink1
    | (sink1, some e) => (sink1, some e)

/-- RLE::get_be (adapters/rle.rs): decode a length prefix of prefixWidth
bytes, then that many items.  The to_usize cast of an unsigned prefix always
succeeds, so the InvalidData arm of the source is unreachable here. -/
def getRLE {α : Type} (prefixWidth : Nat) (c : ElemCodec α) (l : List Nat) :
    Except AdapterError (List α × List Nat) :=
  match getPrim prefixWidth l with
  | .error e => .error e
  | .ok (len, l1) => getMany c len l1

/-- RLE::put_be (adapters/rle.rs): S::from_usize fails when the item count
does not fit the prefix type, producing InvalidData before any byte is
written; otherwise write the count and then each item. -/
def putRLE {α : Type} (prefixWidth : Nat) (c : ElemCodec α) (xs : List α)
    (sink : List Nat) : List Nat × Option AdapterError :=
  if xs.length < 256 ^ prefixWidth then
    let sink1 := (putPrim prefixWidth xs.length sink).1
    putMany c xs sink1
  else
    (sink, some (.InvalidData ("cannot cast length from usize: " ++ toString xs.length)))

/-- One byte is a UTF-8 continuation byte. -/
def isCont (b : Nat) : Bool := 128 ≤ b && b ≤ 191

/-- UTF-8 validity of a byte sequence, as checked by String::from_utf8. -/
def validUtf8 : List Nat → Bool
  | [] => true
  | b :: rest =>
    if b ≤ 127 then validUtf8 rest
    else if 194 ≤ b && b ≤ 223 then
      match rest with
      | c1 :: r => isCont c1 && validUtf8 r
      | [] => false
    else if b = 224 then
      match rest with
      | c1 :: c2 :: r => (160 ≤ c1 && c1 ≤ 191) && isCont c2 && validUtf8 r
      | _ => false
    else if (225 ≤ b && b ≤ 236) || b = 238 || b = 239 then
      match rest with
      | c1 :: c2 :: r => isCont c1 && isCont c2 && validUtf8 r
      | _ => false
    else if b = 237 then
      match rest with
      | c1 :: c2 :: r => (128 ≤ c1 && c1 ≤ 159) && isCont c2 && validUtf8 r
      | _ => false
    else if b = 240 then
      match rest with
      | c1 :: c2 :: c3 :: r => (144 ≤ c1 && c1 ≤ 191) && isCont c2 && isCont c3 && validUtf8 r
      | _ => false
    else if 241 ≤ b && b ≤ 243 then
      match rest with
      | c1 :: c2 :: c3 :: r => isCont c1 && isCont c2 && isCont c3 && validUtf8 r
      | _ => false
    else if b = 244 then
      match rest with
      | c1 :: c2 :: c3 :: r => (128 ≤ c1 && c1 ≤ 143) && isCont c2 && isCont c3 && validUtf8 r
      | _ => false
    else false

/-- A Rust String value: a byte buffer that is valid UTF-8 by construction. -/
structure RustString where
  bytes : List Nat
  valid : validUtf8 bytes = true
deriving DecidableEq

/-- RLE::get_be for String (adapters/rle.rs): decode the RLE byte vector,
then String::from_utf8, wrapping a UTF-8 failure as Error::Other. -/
def getStr (prefixWidth : Nat) (l : List Nat) :
    Except AdapterError (RustString × List Nat) :=
  match getRLE prefixWidth u8Codec l with
  | .error e => .error e
  | .ok (bs, rest) =>
    if h : validUtf8 bs = true then .ok (⟨bs, h⟩, rest)
    else .error (.Other "invalid utf-8 sequence")

/-- RLE::put_be for String: encode the RLE wrapper around into_bytes. -/
def putStr (prefixWidth : Nat) (s : RustString) (sink : List Nat) :
    List Nat × Option AdapterError :=
  putRLE prefixWidth u8Codec s.bytes sink

/-- NetworkAdapter for Option (net/adapters/complex.rs): decode None when the
source is exhausted, otherwise decode the inner value; encode None writes
nothing. -/
def getOpt {α : Type} (c : ElemCodec α) (l : List Nat) :
    Except AdapterError (Option α × List Nat) :=
  if l.length = 0 then .ok (none, l)
  else
    match c.get l with
    | .error e => .error e
    | .ok (v, rest) => .ok (some v, rest)

/-- put_be for Option. -/
def putOpt {α : Type} (c : ElemCodec α) (o : Option α) (sink : List Nat) :
    List Nat × Option AdapterError :=
  match o with
  | some v => c.put v sink
  | none => (sink, none)

/-! Lawfulness of an element codec with respect to a pure encoding function
and a validity predicate: put appends exactly the encoding and never fails,
get undoes the encoding, and every successful get consumed exactly a valid
encoding (so re-encoding the decoded value restores the input). -/

/-- Codec laws relating get and put to a pure byte encoding: put appends
exactly the encoding and never fails, get undoes the encoding, and a
successful get from a well-formed buffer (bytes below 256) consumed exactly
the encoding of the decoded value. -/
def GoodCodec {α : Type} (c : ElemCodec α) (enc : α → List Nat) (P : α → Prop) : Prop :=
  (∀ v sink, P v → c.put v sink = (sink ++ enc v, none)) ∧
  (∀ v rest, P v → c.get (enc v ++ rest) = .ok (v, rest)) ∧
  (∀ b v rest, (∀ x ∈ b, x < 256) → c.get b = .ok (v, rest) → P v ∧ enc v ++ rest = b)

/-! ## Cipher derivation (src/src/mappings.rs Mappings::get_ciphers) -/

/-- Mappings::get_ciphers: split the 26-byte binary key into two 13-byte
halves and build one fresh RC4 cipher from each. -/
def getCiphers (binaryRc4 : List Nat) : Rc4 × Rc4 :=
  let key0 := binaryRc4.take 13
  let key1 := binaryRc4.drop 13
  (rc4Init key0, rc4Init key1)

/-- A frame codec holds the receive and send cipher states. -/
structure FrameCodec where
  recv : Rc4
  send : Rc4
deriving DecidableEq

/-- Codec::new_client: (recv, send) takes the ciphers in order. -/
def newClient (binaryRc4 : List Nat) : FrameCodec :=
  let c := getCiphers binaryRc4
  { recv := c.1, send := c.2 }

/-- Codec::new_server: (send, recv) takes the ciphers in order, so the two
endpoints of one relay hold complementary pairs. -/
def newServer (binaryRc4 : List Nat) : FrameCodec :=
  let c := getCiphers binaryRc4
  { send := c.1, recv := c.2 }

/-! ## Frame codec, net revision (src/src/net/proxy/codec.rs)

The RawPacket type of this revision lives in src/src/net/proxy/raw.rs, which
is absent from src/.  Modelled from the spec: a raw packet is an immutable
byte container of length at least one whose first byte is the wire message
ID and whose remaining bytes are the decrypted payload; into_bytes returns
that buffer.  The structure below carries the first byte and the rest
separately, making the non-emptiness structural. -/

/-- Raw packet of the net revision.  Modelled from the spec: first byte is
the wire ID, the rest is the decrypted payload (section 4.E, missing
src/src/net/proxy/raw.rs). -/
structure RawPacketN where
  id : Nat
  payload : List Nat
deriving DecidableEq

/-- into_bytes of the net raw packet: the underlying buffer. -/
def RawPacketN.intoBytes (r : RawPacketN) : List Nat :=
  r.id :: r.payload

/-- CodecError of the net revision (IO errors are transport-level and out of
scope of the byte-level model). -/
inductive NetCodecError
  | TooLong (n : Nat)
deriving DecidableEq

/-- Codec::encode (net/proxy/codec.rs lines 100-124): len().to_u32() fails
with TooLong when the buffer exceeds the u32 range; otherwise write the
big-endian u32 total length (payload_size + 4, wrapping u32 arithmetic),
the cleartext ID byte, then the payload encrypted with the send cipher.
Returns the advanced send cipher and the bytes appended to dst. -/
def encodeNet (st : Rc4) (packet : RawPacketN) :
    Rc4 × Except NetCodecError (List Nat) :=
  let bytes := packet.intoBytes
  if bytes.length ≤ 2 ^ 32 - 1 then
    let payloadSize := bytes.length
    let packetSize := (payloadSize + 4) % 2 ^ 32
    let enc := rc4Process st packet.payload
    (enc.1, .ok (toBE 4 packetSize ++ packet.id :: enc.2))
  else
    (st, .error (.TooLong (bytes.length + 4)))

/-- Outcome of one decode call on a buffered byte stream. -/
inductive NetDecodeResult
  | needMore
  | diverged
  | packet (st : Rc4) (r : RawPacketN) (rest : List Nat)
deriving DecidableEq

/-- Codec::decode (net/proxy/codec.rs lines 57-93): with fewer than 4 bytes
yield nothing; read the big-endian u32 total length; a length below 5 trips
debug_assert (diverged: no error value exists for it, the process aborts);
with fewer than length bytes buffered yield nothing; otherwise split off the
frame, keep byte 4 as the cleartext ID and decrypt the remainder with the
receive cipher. -/
def decodeNet (st : Rc4) (buf : List Nat) : NetDecodeResult :=
  if buf.length < 4 then .needMore
  else
    let packetSize := fromBE (buf.take 4)
    if packetSize < 5 then .diverged
    else if buf.length < packetSize then .needMore
    else
      let packet := buf.take packetSize
      let dec := rc4Process st (packet.drop 5)
      .packet dec.1 ⟨packet.getD 4 0, dec.2⟩ (buf.drop packetSize)

/-! ## Frame codec and raw packet, current revision
(src/src/proxy/codec.rs and src/src/proxy/raw.rs)

In this revision the RawPacket keeps the whole frame: bytes 0-3 are the
big-endian length, byte 4 the wire ID, bytes 5.. the decrypted payload. -/

/-- RawPacket (src/src/proxy/raw.rs): the full frame buffer. -/
structure RawPacketV1 where
  bytes : List Nat
deriving DecidableEq

/-- RawPacket::game_id: byte at offset 4. -/
def RawPacketV1.game_id (r : RawPacketV1) : Nat :=
  r.bytes.getD 4 0

/-- RawPacket::contents: bytes after offset 4. -/
def RawPacketV1.contents (r : RawPacketV1) : List Nat :=
  r.bytes.drop 5

/-- Outcome of one decode call of the current codec revision. -/
inductive ProxyDecodeResult
  | needMore
  | diverged
  | packet (st : Rc4) (raw : RawPacketV1) (rest : List Nat)
deriving DecidableEq

/-- Codec::decode (src/src/proxy/codec.rs lines 51-80): as decodeNet, but
the emitted raw packet keeps the length header; bytes 0-4 pass through
unciphered and bytes 5.. are decrypted in place.  A total length below 5
trips debug_assert (and, were assertions disabled, the slice packet[5..]
of a frame shorter than 5 bytes aborts); CodecError of this file has no
framing variant, so no error value can be returned for it. -/
def decodeProxy (st : Rc4) (buf : List Nat) : ProxyDecodeResult :=
  if buf.length < 4 then .needMore
  else
    let packetSize := fromBE (buf.take 4)
    if packetSize < 5 then .diverged
    else if buf.length < packetSize then .needMore
    else
      let packet := buf.take packetSize
      let dec := rc4Process st (packet.drop 5)
      .packet dec.1 ⟨packet.take 5 ++ dec.2⟩ (buf.drop packetSize)

/-! ## Message catalog (core/src/packets/mod.rs)

The define_packets! invocation declares every variant inside a Client block
or a Server block.  The payload record of each variant is irrelevant to the
claims below; the catalog data that matters is the enumeration of internal
IDs, the block each is declared in, and the SERVERSIDE table. -/

/-- The block a packet variant is declared in. -/
inductive Side
  | Client
  | Server
deriving DecidableEq

/-- The is_serverside! macro (core/src/packets/mod.rs lines 76-83),
transcribed exactly: the Client arm expands to true and the Server arm to
false. -/
def is_serverside : Side → Bool
  | .Client => true
  | .Server => false

/-- InternalPacketId: one constructor per variant of define_packets!. -/
inductive InternalPacketId
  | AcceptTrade
  | ActivePetUpdateRequest
  | AoeAck
  | Buy
  | CancelTrade
  | ChangeGuildRank
  | ChangeTrade
  | CheckCredits
  | ChooseName
  | ClaimLoginRewardMsg
  | Create
  | CreateGuild
  | EditAccountList
  | EnemyHit
  | EnterArena
  | Escape
  | GotoAck
  | GroundDamage
  | GuildInvite
  | GuildRemove
  | Hello
  | InvDrop
  | InvSwap
  | JoinGuild
  | KeyInfoRequest
  | Load
  | Move
  | OtherHit
  | PetChangeFormMsg
  | PetChangeSkinMsg
  | PetUpgradeRequest
  | PlayerHit
  | PlayerShoot
  | PlayerText
  | QuestRedeem
  | QuestRoomMsg
  | Pong
  | RequestTrade
  | ResetDailyQuests
  | Reskin
  | SetCondition
  | ShootAck
  | SquareHit
  | Teleport
  | UpdateAck
  | UseItem
  | UsePortal
  | QuestFetchAsk
  | AcceptArenaDeath
  | AccountList
  | ActivePetUpdate
  | AllyShoot
  | Aoe
  | ArenaDeath
  | BuyResult
  | ClientStat
  | CreateSuccess
  | Damage
  | Death
  | DeletePet
  | EnemyShoot
  | EvolvePet
  | Failure
  | File
  | GlobalNotification
  | Goto
  | GuildResult
  | HatchPet
  | InvResult
  | InvitedToGuild
  | ImminentArenaWave
  | KeyInfoResponse
  | LoginRewardMsg
  | MapInfo
  | NameResult
  | NewAbility
  | NewTick
  | Notification
  | PasswordPrompt
  | PetYardUpdate
  | Pic
  | Ping
  | PlaySound
  | QuestObjId
  | QuestFetchResponse
  | QuestRedeemResponse
  | RealmHeroLeftMsg
  | Reconnect
  | ReskinUnlock
  | ServerPlayerShoot
  | ShowEffect
  | Text
  | TradeAccepted
  | TradeChanged
  | TradeDone
  | TradeRequested
  | TradeStart
  | Update
  | VerifyEmail
deriving DecidableEq

/-- The block each variant is declared in (define_packets! invocation,
core/src/packets/mod.rs lines 402-631). -/
def declaredSide : InternalPacketId → Side
  | .AcceptTrade | .ActivePetUpdateRequest | .AoeAck | .Buy | .CancelTrade
  | .ChangeGuildRank | .ChangeTrade | .CheckCredits | .ChooseName
  | .ClaimLoginRewardMsg | .Create | .CreateGuild | .EditAccountList
  | .EnemyHit | .EnterArena | .Escape | .GotoAck | .GroundDamage
  | .GuildInvite | .GuildRemove | .Hello | .InvDrop | .InvSwap | .JoinGuild
  | .KeyInfoRequest | .Load | .Move | .OtherHit | .PetChangeFormMsg
  | .PetChangeSkinMsg | .PetUpgradeRequest | .PlayerHit | .PlayerShoot
  | .PlayerText | .QuestRedeem | .QuestRoomMsg | .Pong | .RequestTrade
  | .ResetDailyQuests | .Reskin | .SetCondition | .ShootAck | .SquareHit
  | .Teleport | .UpdateAck | .UseItem | .UsePortal | .QuestFetchAsk
  | .AcceptArenaDeath => .Client
  | _ => .Server

/-- InternalPacketId::is_server: the SERVERSIDE table stores
is_serverside!(side) at each variant index, so the lookup is exactly the
macro applied to the declaring block. -/
def InternalPacketId.is_server (id : InternalPacketId) : Bool :=
  is_serverside (declaredSide id)

/-- InternalPacketId::is_client: the negation of is_server. -/
def InternalPacketId.is_client (id : InternalPacketId) : Bool :=
  !id.is_server

/-! ## Raw packet conversion (src/src/proxy/raw.rs)

The typed Packet sum carries one record per catalog variant; the pipe and
the conversion helpers never inspect those records, only the internal ID and
the per-variant encoder and decoder tables.  The embedding is therefore
parametric in the Packet type, with getId playing Packet::get_internal_id
and toBytes / decoders playing the ENCODERS / DECODERS dispatch tables. -/

/-- Error converting a RawPacket to or from a Packet (proxy/raw.rs). -/
inductive RawError
  | UnmappedGameId (gameId : Nat)
  | UnmappedInternalId (internalId : InternalPacketId)
  | AdapterErr (e : AdapterError)
deriving DecidableEq

/-- RawPacket::to_packet: map the wire ID to an internal ID (unmapped wire
IDs fail), then decode the contents with that variant's decoder. -/
def toPacketV1 {Packet : Type} (getInternalId : Nat → Option InternalPacketId)
    (decoders : InternalPacketId → List Nat → Except AdapterError Packet)
    (raw : RawPacketV1) : Except RawError Packet :=
  match getInternalId raw.game_id with
  | some id =>
    match decoders id raw.contents with
    | .ok p => .ok p
    | .error e => .error (.AdapterErr e)
  | none => .error (.UnmappedGameId raw.game_id)

/-- RawPacket::from_packet: map the internal ID to a wire ID (unmapped
internal IDs fail), reserve four bytes, write the wire ID and the encoded
body, then patch the first four bytes with the buffer length as a big-endian
u32 (the usize to u32 cast truncates). -/
def fromPacketV1 {Packet : Type} (getGameId : InternalPacketId → Option Nat)
    (getId : Packet → InternalPacketId)
    (toBytes : Packet → Except AdapterError (List Nat))
    (p : Packet) : Except RawError RawPacketV1 :=
  match getGameId (getId p) with
  | none => .error (.UnmappedInternalId (getId p))
  | some gid =>
    match toBytes p with
    | .error e => .error (.AdapterErr e)
    | .ok body => .ok ⟨toBE 4 ((5 + body.length) % 2 ^ 32) ++ gid :: body⟩

/-! ## Pipe (src/src/pipe/pipe.rs and context.rs) -/

/-- PacketSide: which side a packet was sent from. -/
inductive PacketSide
  | Server
  | Client
deriving DecidableEq

/-- The socket an outgoing item is written to. -/
inductive Destination
  | toClient
  | toServer
deriving DecidableEq

/-- Fan-out of the combined sink (pipe.rs lines 112-131): the client sink
keeps only PacketSide::Server items and the server sink keeps only
PacketSide::Client items, so a Server-tagged item is written to the client
socket and a Client-tagged item to the server socket. -/
def routedTo : PacketSide → Destination
  | .Server => .toClient
  | .Client => .toServer

/-- Per-event packet context (pipe/context.rs): cancel flag and injection
queue; send_packet appends, cancel_packet sets the flag. -/
structure PacketContext (Packet : Type) where
  cancelled : Bool
  extra : List Packet

/-- PacketContext::default: not cancelled, no injections. -/
def PacketContext.default (Packet : Type) : PacketContext Packet :=
  { cancelled := false, extra := [] }

/-- Side tag given to an injected packet (pipe.rs lines 158-162): Server
when is_server() returns true, Client otherwise. -/
def sideForInjection {Packet : Type} (getId : Packet → InternalPacketId)
    (p : Packet) : PacketSide :=
  if (getId p).is_server then .Server else .Client

/-- The socket an injected packet ends up written to: its side tag run
through the sink fan-out. -/
def injectionDestination {Packet : Type} (getId : Packet → InternalPacketId)
    (p : Packet) : Destination :=
  routedTo (sideForInjection getId p)

/-- The output batch built for one incoming packet (pipe.rs lines 149-173):
start with the original (side, raw) unless cancelled, then for each injected
packet append (side tag, encoded raw), skipping packets whose encoding
fails. -/
def buildQueue {Packet : Type} (getId : Packet → InternalPacketId)
    (fromPacket : Packet → Except RawError RawPacketV1)
    (side : PacketSide) (raw : RawPacketV1) (ctx : PacketContext Packet) :
    List (PacketSide × RawPacketV1) :=
  let queue := if ctx.cancelled then [] else [(side, raw)]
  ctx.extra.foldl
    (fun q pkt =>
      match fromPacket pkt with
      | .ok r => q ++ [(sideForInjection getId pkt, r)]
      | .error _ => q)
    queue

/-! ## Lazy-decode handle (src/src/pipe/autopacket.rs) -/

/-- AutoPacket: a raw packet plus the sticky decode result, None until the
first decode attempt. -/
structure AutoPacket (Packet : Type) where
  raw : RawPacketV1
  decoded : Option (Except RawError Packet)

/-- AutoPacket::new. -/
def AutoPacket.new {Packet : Type} (raw : RawPacketV1) : AutoPacket Packet :=
  { raw := raw, decoded := none }

/-- AutoPacket::into_raw: the wrapped raw packet, unchanged. -/
def AutoPacket.into_raw {Packet : Type} (ap : AutoPacket Packet) : RawPacketV1 :=
  ap.raw

/-- Result of Packet::downcast_ref after a successful decode: the packet
when its variant matches the requested type, absent otherwise. -/
def downcastResult {Packet : Type} (getId : Packet → InternalPacketId)
    (target : InternalPacketId) : Except RawError Packet → Option Packet
  | .ok p => if getId p = target then some p else none
  | .error _ => none

/-- Observable effects of one AutoPacket::downcast call. -/
structure DowncastStep (Packet : Type) where
  result : Option Packet
  state : AutoPacket Packet
  didDecode : Bool
  didLog : Bool

/-- AutoPacket::downcast (pipe/autopacket.rs lines 35-77): return absent
when the wire ID is unmapped or does not match the requested variant; on the
first matching call decode once via to_packet, store the result, and log
when it is an error; on every later call reuse the stored result without
decoding or logging. -/
def downcast {Packet : Type} (getInternalId : Nat → Option InternalPacketId)
    (decoders : InternalPacketId → List Nat → Except AdapterError Packet)
    (getId : Packet → InternalPacketId) (target : InternalPacketId)
    (ap : AutoPacket Packet) : DowncastStep Packet :=
  match getInternalId ap.raw.game_id with
  | none => ⟨none, ap, false, false⟩
  | some id =>
    if id = target then
      match ap.decoded with
      | none =>
        let r := toPacketV1 getInternalId decoders ap.raw
        let logged := match r with | .error _ => true | .ok _ => false
        ⟨downcastResult getId target r, { ap with decoded := some r }, true, logged⟩
      | some r => ⟨downcastResult getId target r, ap, false, false⟩
    else ⟨none, ap, false, false⟩

/-- Run a sequence of downcast calls (one per plugin), returning the final
handle state, the number of decode invocations, and the number of log
events. -/
def runDowncasts {Packet : Type} (getInternalId : Nat → Option InternalPacketId)
    (decoders : InternalPacketId → List Nat → Except AdapterError Packet)
    (getId : Packet → InternalPacketId) :
    List InternalPacketId → AutoPacket Packet → AutoPacket Packet × Nat × Nat
  | [], ap => (ap, 0, 0)
  | t :: ts, ap =>
    let step := downcast getInternalId decoders getId t ap
    let rest := runDowncasts getInternalId decoders getId ts step.state
    (rest.1, (if step.didDecode then 1 else 0) + rest.2.1,
      (if step.didLog then 1 else 0) + rest.2.2)

/-! ## Server directory (src/src/serverlist.rs)

Server names are modelled as their UTF-8 byte lists (the names involved are
ASCII, where str::to_lowercase is the per-byte ASCII lowering).  The
HashMap is modelled as an association list with HashMap insert semantics:
insert replaces the value of an existing key and appends a fresh key; the
iteration order of the input map becomes the order of the input list. -/

/-- Bytes of a string literal, for readability of concrete examples. -/
def strBytes (s : String) : List Nat :=
  s.data.map Char.toNat

/-- ASCII lowercasing of one byte. -/
def lowerByte (b : Nat) : Nat :=
  if 65 ≤ b ∧ b ≤ 90 then b + 32 else b

/-- str::to_lowercase on an ASCII name. -/
def rustLower (s : List Nat) : List Nat :=
  s.map lowerByte

/-- Recursion core of str::replace.  The fuel argument only bounds the
recursion depth for structural termination; every call site passes the
length of the scanned list, which the recursion never exhausts because each
step consumes at least one element. -/
def rustReplaceGo (pat rep : List Nat) : Nat → List Nat → List Nat
  | 0, s => s
  | fuel + 1, s =>
    match s with
    | [] => []
    | c :: rest =>
      if pat ≠ [] ∧ pat.isPrefixOf (c :: rest) then
        rep ++ rustReplaceGo pat rep fuel ((c :: rest).drop pat.length)
      else
        c :: rustReplaceGo pat rep fuel rest

/-- str::replace: replace every non-overlapping occurrence of pat, scanning
left to right.  All patterns used by abbreviate are non-empty. -/
def rustReplace (s pat rep : List Nat) : List Nat :=
  rustReplaceGo pat rep s.length s

/-- serverlist::abbreviate: lowercase, then apply the fixed substitution
chain east, west, south, north, asia, mid, australia in that order. -/
def abbreviate (name : List Nat) : List Nat :=
  let s := rustLower name
  let s := rustReplace s (strBytes "east") (strBytes "e")
  let s := rustReplace s (strBytes "west") (strBytes "w")
  let s := rustReplace s (strBytes "south") (strBytes "s")
  let s := rustReplace s (strBytes "north") (strBytes "n")
  let s := rustReplace s (strBytes "asia") (strBytes "as")
  let s := rustReplace s (strBytes "mid") (strBytes "m")
  rustReplace s (strBytes "australia") (strBytes "aus")

/-- An IPv4 address. -/
structure Ip where
  a : Nat
  b : Nat
  c : Nat
  d : Nat
deriving DecidableEq

/-- Association-list model of HashMap of byte-string keys. -/
abbrev HMap := List (List Nat × Ip)

/-- HashMap::contains_key. -/
def hmContains (m : HMap) (k : List Nat) : Bool :=
  m.any (fun p => p.1 = k)

/-- HashMap::insert: replace the value at an existing key, else append. -/
def hmInsert (m : HMap) (k : List Nat) (v : Ip) : HMap :=
  if hmContains m k then
    m.map (fun p => if p.1 = k then (k, v) else p)
  else
    m ++ [(k, v)]

/-- HashMap::get. -/
def hmGet (m : HMap) (k : List Nat) : Option Ip :=
  (m.find? (fun p => p.1 = k)).map (fun p => p.2)

/-- One iteration of the ServerList::new loop (serverlist.rs lines 90-97):
insert the lowercased name unconditionally, then insert the abbreviation
only when that key is not yet present. -/
def serverListEntry (sl : HMap) (entry : List Nat × Ip) : HMap :=
  let sl1 := hmInsert sl (rustLower entry.1) entry.2
  let ab := abbreviate (rustLower entry.1)
  if hmContains sl1 ab then sl1 else hmInsert sl1 ab entry.2

/-- ServerList::new over the entries of the input map, in iteration order. -/
def serverListNew (servers : List (List Nat × Ip)) : HMap :=
  servers.foldl serverListEntry []

/-- ServerList::get_ip. -/
def getIp (sl : HMap) (name : List Nat) : Option Ip :=
  hmGet sl name

/-- ServerList::get_socket: the IP paired with the fixed game port 2050. -/
def getSocket (sl : HMap) (name : List Nat) : Option (Ip × Nat) :=
  (getIp sl name).map (fun ip => (ip, 2050))

/-! ## Manual Pic adapter (src/src/packets/manual_adapters.rs)

The required byte count w * h * 4 is computed in usize arithmetic; the model
reduces it modulo 2 ^ 64, the release-build wrapping semantics. -/

/-- The Pic packet record (w and h decode from u32 fields). -/
structure Pic where
  w : Nat
  h : Nat
  bitmap_data : List Nat
deriving DecidableEq

/-- NetworkAdapter::get_be for Pic: read two big-endian u32 dimensions, then
require w * h * 4 bytes (usize product) as the bitmap, consuming exactly
that many; report InsufficientData otherwise. -/
def picGet (l : List Nat) : Except AdapterError (Pic × List Nat) :=
  match getPrim 4 l with
  | .error e => .error e
  | .ok (w, l1) =>
    match getPrim 4 l1 with
    | .error e => .error e
    | .ok (h, l2) =>
      let reqd := w * h * 4 % 2 ^ 64
      if reqd ≤ l2.length then
        .ok (⟨w, h, l2.take reqd⟩, l2.drop reqd)
      else
        .error (.InsufficientData l2.length reqd)

/-- NetworkAdapter::put_be for Pic: write w, h, then the whole bitmap_data
buffer; no length check, never fails. -/
def picPut (p : Pic) (sink : List Nat) : List Nat × Option AdapterError :=
  let s1 := (putPrim 4 p.w sink).1
  let s2 := (putPrim 4 p.h s1).1
  (s2 ++ p.bitmap_data, none)

/-! ## Derived codec packaging used by the statements below -/

/-- The element codec of a fixed-width unsigned primitive.  Signed integers
and floats are included at bit-pattern level: their from_be_bytes and
to_be_bytes (respectively from_bits and to_bits composed with the u32 or
u64 codec) are bijections with the corresponding unsigned bit patterns. -/
def primCodec (w : Nat) : ElemCodec Nat :=
  { get := getPrim w, put := putPrim w }

/-- The element codec of an RLE sequence. -/
def rleCodec {α : Type} (prefixWidth : Nat) (c : ElemCodec α) : ElemCodec (List α) :=
  { get := getRLE prefixWidth c, put := putRLE prefixWidth c }

/-- The element codec of an RLE string. -/
def strCodec (prefixWidth : Nat) : ElemCodec RustString :=
  { get := getStr prefixWidth, put := putStr prefixWidth }

/-- The pure byte encoding of an RLE sequence: prefix then the encoded
items. -/
def rleEnc {α : Type} (prefixWidth : Nat) (enc : α → List Nat) (xs : List α) : List Nat :=
  toBE prefixWidth xs.length ++ (xs.map enc).flatten

/-- The pure byte encoding of an RLE string: prefix then the UTF-8 bytes. -/
def strEnc (prefixWidth : Nat) (s : RustString) : List Nat :=
  toBE prefixWidth s.bytes.length ++ s.bytes

/-- Validity of an RLE string value for a given prefix width: the byte
length fits the prefix and the bytes are in range. -/
def strPred (prefixWidth : Nat) (s : RustString) : Prop :=
  s.bytes.length < 256 ^ prefixWidth ∧ ∀ b ∈ s.bytes, b < 256

/-- A concrete Rust String value used by concrete examples below. -/
def helloWorldStr : RustString :=
  ⟨strBytes "hello world", by decide⟩

/-!
# Theorems

Helper lemmas first, then one theorem per claim (with its counterexample
and witness where applicable).
-/

/-! ## Big-endian helper lemmas -/

theorem length_toBE (w v : Nat) : (toBE w v).length = w := by
  induction w generalizing v with
  | zero => rfl
  | succ w ih => simp [toBE, ih]

theorem fromBE_append_singleton (l : List Nat) (b : Nat) :
    fromBE (l ++ [b]) = fromBE l * 256 + b := by
  simp [fromBE, List.foldl_append]

theorem fromBE_toBE (w v : Nat) (h : v < 256 ^ w) : fromBE (toBE w v) = v := by
  induction w generalizing v with
  | zero =>
    have hv : v = 0 := by simpa using h
    subst hv
    rfl
  | succ w ih =>
    have hdiv : v / 256 < 256 ^ w := by
      rw [Nat.div_lt_iff_lt_mul (by norm_num)]
      calc v < 256 ^ (w + 1) := h
        _ = 256 ^ w * 256 := by ring
    simp only [toBE, fromBE_append_singleton, ih (v / 256) hdiv]
    omega

theorem toBE_fromBE (l : List Nat) (hb : ∀ b ∈ l, b < 256) :
    toBE l.length (fromBE l) = l := by
  induction l using List.reverseRecOn with
  | nil => rfl
  | append_singleton l b ih =>
    have hblt : b < 256 := hb b (by simp)
    have hb2 : ∀ x ∈ l, x < 256 := fun x hx => hb x (by simp [hx])
    have h1 : (fromBE l * 256 + b) / 256 = fromBE l := by omega
    have h2 : (fromBE l * 256 + b) % 256 = b := by omega
    simp [fromBE_append_singleton, toBE, h1, h2, ih hb2]

theorem toBE_bytes_lt (w v : Nat) : ∀ b ∈ toBE w v, b < 256 := by
  induction w generalizing v with
  | zero => simp [toBE]
  | succ w ih =>
    intro b hbmem
    rcases List.mem_append.mp hbmem with h | h
    · exact ih _ b h
    · simp only [List.mem_singleton] at h
      subst h
      omega

theorem fromBE_lt (l : List Nat) (hb : ∀ b ∈ l, b < 256) :
    fromBE l < 256 ^ l.length := by
  induction l using List.reverseRecOn with
  | nil => simp [fromBE]
  | append_singleton l b ih =>
    have hblt : b < 256 := hb b (by simp)
    have hb2 : ∀ x ∈ l, x < 256 := fun x hx => hb x (by simp [hx])
    have h1 := ih hb2
    simp only [fromBE_append_singleton, List.length_append, List.length_singleton,
      pow_succ]
    nlinarith

/-! ## RC4 helper lemmas -/

theorem rc4Process_length (st : Rc4) (xs : List Nat) :
    (rc4Process st xs).2.length = xs.length := by
  induction xs generalizing st with
  | nil => rfl
  | cons x xs ih => simp [rc4Process, ih]

/-- Applying process twice from the same initial state recovers the input
(the keystream is a function of the state only, and XOR is involutive),
and both runs advance the state identically. -/
theorem rc4Process_involutive (st : Rc4) (xs : List Nat) :
    rc4Process st (rc4Process st xs).2 = ((rc4Process st xs).1, xs) := by
  induction xs generalizing st with
  | nil => rfl
  | cons x xs ih =>
    simp only [rc4Process]
    rw [ih (rc4Next st).1]
    simp [Nat.xor_cancel_right]

/-! ## Field codec helper lemmas -/

theorem goodCodec_prim (w : Nat) :
    GoodCodec (primCodec w) (toBE w) (fun v => v < 256 ^ w) := by
  refine ⟨fun v sink _ => rfl, ?_, ?_⟩
  · intro v rest hv
    show getPrim w (toBE w v ++ rest) = .ok (v, rest)
    have htake : (toBE w v ++ rest).take w = toBE w v := by
      have h := List.take_left (toBE w v) rest
      rwa [length_toBE] at h
    have hdrop : (toBE w v ++ rest).drop w = rest := by
      have h := List.drop_left (toBE w v) rest
      rwa [length_toBE] at h
    have hlen : ¬ (toBE w v ++ rest).length < w := by
      rw [List.length_append, length_toBE]
      omega
    unfold getPrim
    rw [if_neg hlen, htake, hdrop, fromBE_toBE w v hv]
  · intro b v rest hb hget
    replace hget : getPrim w b = Except.ok (v, rest) := hget
    unfold getPrim at hget
    split at hget
    · exact absurd hget (by simp)
    · rename_i hlen
      have hwle : w ≤ b.length := Nat.le_of_not_lt hlen
      have htlen : (b.take w).length = w := by
        simp [List.length_take, Nat.min_eq_left hwle]
      have htb : ∀ x ∈ b.take w, x < 256 := fun x hx => hb x (List.take_subset w b hx)
      simp only [Except.ok.injEq, Prod.mk.injEq] at hget
      obtain ⟨hv, hrest⟩ := hget
      subst hv
      subst hrest
      constructor
      · have h := fromBE_lt (b.take w) htb
        rwa [htlen] at h
      · have h := toBE_fromBE (b.take w) htb
        rw [htlen] at h
        rw [h]
        exact List.take_append_drop w b

theorem putMany_of_good {α : Type} {c : ElemCodec α} {enc : α → List Nat} {P : α → Prop}
    (hgood : GoodCodec c enc P) (xs : List α) (hxs : ∀ x ∈ xs, P x) (sink : List Nat) :
    putMany c xs sink = (sink ++ (xs.map enc).flatten, none) := by
  induction xs generalizing sink with
  | nil => simp [putMany]
  | cons x xs ih =>
    have hx : P x := hxs x (by simp)
    have hxs2 : ∀ y ∈ xs, P y := fun y hy => hxs y (by simp [hy])
    simp only [putMany, hgood.1 x sink hx]
    rw [ih hxs2]
    simp

theorem getMany_of_good {α : Type} {c : ElemCodec α} {enc : α → List Nat} {P : α → Prop}
    (hgood : GoodCodec c enc P) (xs : List α) (hxs : ∀ x ∈ xs, P x) (rest : List Nat) :
    getMany c xs.length ((xs.map enc).flatten ++ rest) = .ok (xs, rest) := by
  induction xs with
  | nil => simp [getMany]
  | cons x xs ih =>
    have hx : P x := hxs x (by simp)
    have hxs2 : ∀ y ∈ xs, P y := fun y hy => hxs y (by simp [hy])
    have hget := hgood.2.1 x ((xs.map enc).flatten ++ rest) hx
    simp only [List.length_cons, List.map_cons, List.flatten_cons, List.append_assoc]
    simp only [getMany, hget, ih hxs2]

theorem getMany_sound {α : Type} {c : ElemCodec α} {enc : α → List Nat} {P : α → Prop}
    (hgood : GoodCodec c enc P) :
    ∀ (n : Nat) (b : List Nat) (xs : List α) (rest : List Nat),
      (∀ x ∈ b, x < 256) → getMany c n b = .ok (xs, rest) →
      xs.length = n ∧ (∀ x ∈ xs, P x) ∧ (xs.map enc).flatten ++ rest = b := by
  intro n
  induction n with
  | zero =>
    intro b xs rest _hb hget
    simp only [getMany, Except.ok.injEq, Prod.mk.injEq] at hget
    obtain ⟨h1, h2⟩ := hget
    subst h1
    subst h2
    simp
  | succ n ih =>
    intro b xs rest hb hget
    simp only [getMany] at hget
    cases hcg : c.get b with
    | error e => rw [hcg] at hget; exact absurd hget (by simp)
    | ok p =>
      obtain ⟨x, l1⟩ := p
      rw [hcg] at hget
      dsimp only at hget
      obtain ⟨hx, hencx⟩ := hgood.2.2 b x l1 hb hcg
      have hl1 : ∀ y ∈ l1, y < 256 := by
        intro y hy
        exact hb y (by rw [← hencx]; exact List.mem_append_right _ hy)
      cases hgm : getMany c n l1 with
      | error e => rw [hgm] at hget; exact absurd hget (by simp)
      | ok q =>
        obtain ⟨xs1, l2⟩ := q
        rw [hgm] at hget
        simp only [Except.ok.injEq, Prod.mk.injEq] at hget
        obtain ⟨h1, h2⟩ := hget
        subst h1
        subst h2
        obtain ⟨hlen2, hP, hflat⟩ := ih l1 xs1 l2 hl1 hgm
        refine ⟨by simp [hlen2], ?_, ?_⟩
        · intro y hy
          rcases List.mem_cons.mp hy with h | h
          · subst h; exact hx
          · exact hP y h
        · simp only [List.map_cons, List.flatten_cons, List.append_assoc, hflat]
          exact hencx

theorem goodCodec_rle {α : Type} {c : ElemCodec α} {enc : α → List Nat} {P : α → Prop}
    (S : Nat) (hgood : GoodCodec c enc P) :
    GoodCodec (rleCodec S c) (rleEnc S enc)
      (fun xs => xs.length < 256 ^ S ∧ ∀ x ∈ xs, P x) := by
  refine ⟨?_, ?_, ?_⟩
  · intro xs sink hxs
    show putRLE S c xs sink = _
    rw [putRLE, if_pos hxs.1]
    rw [putMany_of_good hgood xs hxs.2]
    simp [putPrim, rleEnc]
  · intro xs rest hxs
    show getRLE S c (rleEnc S enc xs ++ rest) = _
    rw [rleEnc, List.append_assoc, getRLE]
    have hp := (goodCodec_prim S).2.1 xs.length ((xs.map enc).flatten ++ rest) hxs.1
    rw [show (primCodec S).get = getPrim S from rfl] at hp
    rw [hp]
    exact getMany_of_good hgood xs hxs.2 rest
  · intro b xs rest hb hget
    rw [show (rleCodec S c).get = getRLE S c from rfl, getRLE] at hget
    cases hcp : getPrim S b with
    | error e => rw [hcp] at hget; exact absurd hget (by simp)
    | ok p =>
      obtain ⟨len, b1⟩ := p
      rw [hcp] at hget
      obtain ⟨hlenP, hencl⟩ := (goodCodec_prim S).2.2 b len b1 hb hcp
      have hb1 : ∀ y ∈ b1, y < 256 := by
        intro y hy
        exact hb y (by rw [← hencl]; exact List.mem_append_right _ hy)
      obtain ⟨hxlen, hP, hflat⟩ := getMany_sound hgood len b1 xs rest hb1 hget
      refine ⟨⟨by rw [hxlen]; exact hlenP, hP⟩, ?_⟩
      rw [rleEnc, hxlen, List.append_assoc, hflat]
      exact hencl

theorem flatten_map_toBE1 (bs : List Nat) (hb : ∀ x ∈ bs, x < 256) :
    (bs.map (toBE 1)).flatten = bs := by
  induction bs with
  | nil => rfl
  | cons x bs ih =>
    have hx : x < 256 := hb x (by simp)
    have hb2 : ∀ y ∈ bs, y < 256 := fun y hy => hb y (by simp [hy])
    have h1 : toBE 1 x = [x] := by simp [toBE, Nat.mod_eq_of_lt hx]
    simp [h1, ih hb2]

theorem goodCodec_u8rle (S : Nat) :
    GoodCodec (rleCodec S u8Codec) (rleEnc S (toBE 1))
      (fun bs => bs.length < 256 ^ S ∧ ∀ x ∈ bs, x < 256) :=
  goodCodec_rle S (goodCodec_prim 1)

theorem goodCodec_str (S : Nat) :
    GoodCodec (strCodec S) (strEnc S) (strPred S) := by
  have hrle := goodCodec_u8rle S
  refine ⟨?_, ?_, ?_⟩
  · intro s sink hs
    show putStr S s sink = _
    rw [putStr]
    have h := hrle.1 s.bytes sink ⟨hs.1, hs.2⟩
    rw [show (rleCodec S u8Codec).put = putRLE S u8Codec from rfl] at h
    rw [h, rleEnc, flatten_map_toBE1 s.bytes hs.2]
    simp [strEnc]
  · intro s rest hs
    show getStr S (strEnc S s ++ rest) = _
    have henc : rleEnc S (toBE 1) s.bytes = strEnc S s := by
      rw [rleEnc, flatten_map_toBE1 s.bytes hs.2, strEnc]
    have h := hrle.2.1 s.bytes rest ⟨hs.1, hs.2⟩
    rw [show (rleCodec S u8Codec).get = getRLE S u8Codec from rfl, henc] at h
    rw [getStr, h]
    have hv := s.valid
    cases s
    simp [hv]
  · intro b s rest hb hget
    rw [show (strCodec S).get = getStr S from rfl, getStr] at hget
    cases hcg : getRLE S u8Codec b with
    | error e => rw [hcg] at hget; exact absurd hget (by simp)
    | ok p =>
      obtain ⟨bs, rest1⟩ := p
      rw [hcg] at hget
      dsimp only at hget
      obtain ⟨⟨hlen, hbytes⟩, hencb⟩ := hrle.2.2 b bs rest1 hb hcg
      split at hget
      · rename_i hvalid
        simp only [Except.ok.injEq, Prod.mk.injEq] at hget
        obtain ⟨h1, h2⟩ := hget
        subst h2
        have hsb : s.bytes = bs := by rw [← h1]
        refine ⟨⟨by rw [hsb]; exact hlen, by rw [hsb]; exact hbytes⟩, ?_⟩
        have h3 : rleEnc S (toBE 1) bs = toBE S bs.length ++ bs := by
          rw [rleEnc, flatten_map_toBE1 bs hbytes]
        rw [strEnc, hsb, ← h3]
        exact hencb
      · exact absurd hget (by simp)

theorem opt_clauses_of_good {α : Type} {c : ElemCodec α} {enc : α → List Nat} {P : α → Prop}
    (hgood : GoodCodec c enc P) :
    getOpt c [] = .ok (none, []) ∧
    (∀ v, P v → enc v ≠ [] → getOpt c (enc v) = .ok (some v, [])) ∧
    (∀ v sink, P v → putOpt c (some v) sink = (sink ++ enc v, none)) ∧
    (∀ sink, putOpt c none sink = (sink, none)) ∧
    (∀ b o rest, (∀ x ∈ b, x < 256) → getOpt c b = .ok (o, rest) →
      Option.elim o [] enc ++ rest = b) := by
  refine ⟨rfl, ?_, ?_, fun sink => rfl, ?_⟩
  · intro v hv hne
    rw [getOpt, if_neg (by simpa using hne)]
    have h := hgood.2.1 v [] hv
    rw [List.append_nil] at h
    rw [h]
  · intro v sink hv
    exact hgood.1 v sink hv
  · intro b o rest hb hget
    rw [getOpt] at hget
    split at hget
    · rename_i hnil
      simp only [Except.ok.injEq, Prod.mk.injEq] at hget
      obtain ⟨h1, h2⟩ := hget
      subst h1
      subst h2
      simp [List.length_eq_zero.mp hnil]
    · cases hcg : c.get b with
      | error e => rw [hcg] at hget; exact absurd hget (by simp)
      | ok p =>
        obtain ⟨v, rest1⟩ := p
        rw [hcg] at hget
        simp only [Except.ok.injEq, Prod.mk.injEq] at hget
        obtain ⟨h1, h2⟩ := hget
        subst h1
        subst h2
        exact (hgood.2.2 b v rest1 hb hcg).2

/-! ## Claim C3: field codec round trip -/

/-- C3 counterexample: the byte sequence consisting of the single byte 2 is
a well-formed bool encoding (decoding succeeds, consuming the whole buffer,
and yields true), yet re-encoding the decoded value produces the byte 1, so
encode(decode(b)) = b fails for the bool codec exactly because any nonzero
byte decodes to true while true encodes as 1. -/
theorem C3_counterexample_bool_noncanonical :
    getBool [2] = .ok (true, []) ∧ putBool true [] = ([1], none) ∧
    ([1] : List Nat) ≠ [2] := by
  refine ⟨by decide, by decide, by decide⟩

/-- C3 (amended): decode(encode(v)) = v holds for every primitive (at
bit-pattern level, covering the signed and float types), for bool, for
length-prefixed sequences of lawful element codecs, for length-prefixed
strings and for the optional trailing field; and encode(decode(b)) = b
holds for every well-formed byte sequence of those types except bool, where
it holds exactly for the canonical encodings 0 and 1 (any nonzero byte
decodes to true, which re-encodes as 1). -/
theorem C3_field_codec_round_trip_amended :
    (∀ w, GoodCodec (primCodec w) (toBE w) (fun v => v < 256 ^ w)) ∧
    (∀ (b : Bool) (rest : List Nat),
      getBool ((if b then [1] else [0]) ++ rest) = .ok (b, rest) ∧
      putBool b [] = ([if b then 1 else 0], none)) ∧
    (∀ (v : Nat) (rest : List Nat), getBool (v :: rest) = .ok (v != 0, rest)) ∧
    (∀ v : Nat, v ≤ 1 → putBool (v != 0) [] = ([v], none)) ∧
    (∀ {α : Type} (c : ElemCodec α) (enc : α → List Nat) (P : α → Prop) (S : Nat),
      GoodCodec c enc P →
      GoodCodec (rleCodec S c) (rleEnc S enc)
        (fun xs => xs.length < 256 ^ S ∧ ∀ x ∈ xs, P x)) ∧
    (∀ S, GoodCodec (strCodec S) (strEnc S) (strPred S)) ∧
    (∀ {α : Type} (c : ElemCodec α) (enc : α → List Nat) (P : α → Prop),
      GoodCodec c enc P →
      getOpt c [] = .ok (none, []) ∧
      (∀ v, P v → enc v ≠ [] → getOpt c (enc v) = .ok (some v, [])) ∧
      (∀ v sink, P v → putOpt c (some v) sink = (sink ++ enc v, none)) ∧
      (∀ sink, putOpt c none sink = (sink, none)) ∧
      (∀ b o rest, (∀ x ∈ b, x < 256) → getOpt c b = .ok (o, rest) →
        Option.elim o [] enc ++ rest = b)) := by
  refine ⟨goodCodec_prim, ?_, ?_, ?_, ?_, goodCodec_str, ?_⟩
  · intro b rest
    cases b <;> exact ⟨by simp [getBool, getPrim, fromBE], by decide⟩
  · intro v rest
    simp [getBool, getPrim, fromBE]
  · intro v hv
    interval_cases v <;> decide
  · intro α c enc P S h
    exact goodCodec_rle S h
  · intro α c enc P h
    exact opt_clauses_of_good h

/-- C3 witness: the amended round-trip laws instantiated on concrete
buffers: a 2-byte primitive, the concrete scenario sequence 1..5 with
16-bit prefix, the string codec on "hello world", and the optional field
present and absent. -/
theorem C3_field_codec_round_trip_amended_witness :
    getPrim 2 (toBE 2 770 ++ [9]) = .ok (770, [9]) ∧
    getRLE 2 u8Codec (rleEnc 2 (toBE 1) [1, 2, 3, 4, 5] ++ []) = .ok ([1, 2, 3, 4, 5], []) ∧
    putRLE 2 u8Codec [1, 2, 3, 4, 5] [] = ([] ++ rleEnc 2 (toBE 1) [1, 2, 3, 4, 5], none) ∧
    getStr 2 (strEnc 2 helloWorldStr ++ []) = .ok (helloWorldStr, []) ∧
    getOpt u8Codec [] = .ok (none, []) ∧
    getOpt u8Codec (toBE 1 7) = .ok (some 7, []) ∧
    getBool ((if true then [1] else [0]) ++ [5]) = .ok (true, [5]) :=
  have hthm := C3_field_codec_round_trip_amended
  have hrle := hthm.2.2.2.2.1 u8Codec (toBE 1) (fun v => v < 256 ^ 1) 2 (goodCodec_prim 1)
  have hopt := hthm.2.2.2.2.2.2 u8Codec (toBE 1) (fun v => v < 256 ^ 1) (goodCodec_prim 1)
  ⟨(hthm.1 2).2.1 770 [9] (by norm_num),
   hrle.2.1 [1, 2, 3, 4, 5] [] ⟨by norm_num, by decide⟩,
   hrle.1 [1, 2, 3, 4, 5] [] ⟨by norm_num, by decide⟩,
   (hthm.2.2.2.2.2.1 2).2.1 helloWorldStr [] ⟨by decide, by decide⟩,
   hopt.1,
   hopt.2.1 7 (by norm_num) (by decide),
   (hthm.2.1 true [5]).1⟩

/-! ## Claim C7: length-prefix overflow -/

/-- C7: encoding an RLE sequence whose item count does not fit the prefix
type fails with InvalidData and leaves the sink untouched: the from_usize
check precedes every write. -/
theorem C7_length_prefix_overflow {α : Type} (c : ElemCodec α) (S : Nat)
    (xs : List α) (sink : List Nat) (h : 256 ^ S ≤ xs.length) :
    putRLE S c xs sink =
      (sink, some (.InvalidData ("cannot cast length from usize: " ++ toString xs.length))) := by
  rw [putRLE, if_neg (by omega)]

/-- C7 witness: a 300-element sequence with an 8-bit prefix fails with
InvalidData and writes nothing. -/
theorem C7_length_prefix_overflow_witness :
    putRLE 1 u8Codec (List.replicate 300 (0 : Nat)) [] =
      ([], some (.InvalidData
        ("cannot cast length from usize: " ++ toString (List.replicate 300 (0 : Nat)).length))) :=
  C7_length_prefix_overflow u8Codec 1 (List.replicate 300 (0 : Nat)) []
    (by rw [List.length_replicate]; norm_num)

/-! ## Claim C8: output batch order -/

theorem foldl_enqueue {Packet : Type} (getId : Packet → InternalPacketId)
    (fromPacket : Packet → Except RawError RawPacketV1) :
    ∀ (l : List Packet) (q : List (PacketSide × RawPacketV1)),
      l.foldl
        (fun q pkt =>
          match fromPacket pkt with
          | .ok r => q ++ [(sideForInjection getId pkt, r)]
          | .error _ => q) q
      = q ++ l.filterMap
          (fun pkt =>
            match fromPacket pkt with
            | .ok r => some (sideForInjection getId pkt, r)
            | .error _ => none) := by
  intro l
  induction l with
  | nil => simp
  | cons p l ih =>
    intro q
    cases hfp : fromPacket p with
    | ok r => simp [hfp, ih]
    | error e => simp [hfp, ih]

/-- C8: the output batch equals the original packet (present exactly when no
plugin cancelled, and first) followed by the successfully encoded injected
packets in the order plugins appended them; an injection that fails to
encode is dropped without affecting the rest of the batch. -/
theorem C8_batch_order {Packet : Type} (getId : Packet → InternalPacketId)
    (fromPacket : Packet → Except RawError RawPacketV1)
    (side : PacketSide) (raw : RawPacketV1) (ctx : PacketContext Packet) :
    buildQueue getId fromPacket side raw ctx =
      (if ctx.cancelled then [] else [(side, raw)]) ++
      ctx.extra.filterMap
        (fun pkt =>
          match fromPacket pkt with
          | .ok r => some (sideForInjection getId pkt, r)
          | .error _ => none) := by
  rw [buildQueue]
  exact foldl_enqueue getId fromPacket ctx.extra _

/-! ## Claim C1: injected packet routing -/

/-- C1 (code bug): the claim states that a client-declared injected message
is written to the server socket and a server-declared one to the client
socket.  The code does the opposite: the is_serverside! macro expands
Client to true and Server to false, so is_server() returns true exactly for
client-declared variants, the injected packet is tagged PacketSide::Server,
and the sink fan-out writes Server-tagged items to the client socket.  The
theorem shows the inversion for every catalog variant (packets modelled by
their internal ID, the only part of a packet the routing inspects), and in
particular for the client-declared Hello message. -/
theorem C1_injection_routing_inverted :
    (∀ id : InternalPacketId, declaredSide id = Side.Client →
      injectionDestination (fun p : InternalPacketId => p) id = Destination.toClient) ∧
    (∀ id : InternalPacketId, declaredSide id = Side.Server →
      injectionDestination (fun p : InternalPacketId => p) id = Destination.toServer) ∧
    is_serverside Side.Client = true ∧ is_serverside Side.Server = false := by
  refine ⟨?_, ?_, rfl, rfl⟩
  · intro id h
    simp [injectionDestination, sideForInjection, InternalPacketId.is_server, h,
      is_serverside, routedTo]
  · intro id h
    simp [injectionDestination, sideForInjection, InternalPacketId.is_server, h,
      is_serverside, routedTo]

/-- C1 witness: an injected Hello (declared in the Client block) is routed
to the client socket, and an injected Text (declared in the Server block)
is routed to the server socket — the exact opposite of the claim. -/
theorem C1_injection_routing_inverted_witness :
    injectionDestination (fun p : InternalPacketId => p) InternalPacketId.Hello
      = Destination.toClient ∧
    injectionDestination (fun p : InternalPacketId => p) InternalPacketId.Text
      = Destination.toServer :=
  ⟨C1_injection_routing_inverted.1 InternalPacketId.Hello rfl,
   C1_injection_routing_inverted.2.1 InternalPacketId.Text rfl⟩

/-! ## Claim C2: short total length -/

/-- C2 (code bug): with at least 4 bytes buffered and a big-endian length
field below 5, Codec::decode of src/src/proxy/codec.rs trips
debug_assert (and with assertions disabled the slice packet[5..] of the
short frame aborts); it neither reports a framing error — CodecError of
that file has no framing variant — nor yields a packet nor waits for more
data. -/
theorem C2_short_length_asserts :
    (∀ st : Rc4, decodeProxy st [0, 0, 0, 4] = ProxyDecodeResult.diverged) ∧
    (∀ (st : Rc4) (buf : List Nat), 4 ≤ buf.length → fromBE (buf.take 4) < 5 →
      decodeProxy st buf = ProxyDecodeResult.diverged) := by
  constructor
  · intro st
    rfl
  · intro st buf h4 hlt
    simp only [decodeProxy]
    rw [if_neg (by omega), if_pos hlt]

/-- C2 witness: the concrete 4-byte buffer with length field 4, fed to a
decoder freshly keyed with 13 zero bytes. -/
theorem C2_short_length_asserts_witness :
    decodeProxy (rc4Init (List.replicate 13 0)) [0, 0, 0, 4] = ProxyDecodeResult.diverged :=
  C2_short_length_asserts.2 (rc4Init (List.replicate 13 0)) [0, 0, 0, 4]
    (by decide) (by decide)

/-! ## Claim C5: raw packet layout -/

/-- C5 counterexample: the raw packet produced for the 5-byte frame with
total length 5 and wire ID 42 (the spec's own minimal frame) keeps the
whole frame in its buffer.  Its wire-ID accessor game_id returns 42, the
fifth byte — not the first byte, which is 0 — and its payload accessor
contents returns the bytes after the fifth, not the bytes after the
first. -/
theorem C5_counterexample_header_kept :
    decodeProxy (rc4Init (List.replicate 13 0)) [0, 0, 0, 5, 42]
      = ProxyDecodeResult.packet (rc4Init (List.replicate 13 0))
          (RawPacketV1.mk [0, 0, 0, 5, 42]) [] ∧
    (RawPacketV1.mk [0, 0, 0, 5, 42]).game_id = 42 ∧
    (RawPacketV1.mk [0, 0, 0, 5, 42]).bytes.headD 0 = 0 ∧
    (RawPacketV1.mk [0, 0, 0, 5, 42]).game_id ≠ (RawPacketV1.mk [0, 0, 0, 5, 42]).bytes.headD 0 ∧
    (RawPacketV1.mk [0, 0, 0, 5, 42]).contents ≠ (RawPacketV1.mk [0, 0, 0, 5, 42]).bytes.drop 1 :=
  ⟨rfl, by decide, by decide, by decide, by decide⟩

/-- C5 (amended): a raw packet of src/src/proxy/raw.rs is a byte buffer of
length at least 5 whose first four bytes are the big-endian frame length,
whose fifth byte is the wire message ID and whose remaining bytes are the
decrypted payload; game_id returns the fifth byte, contents the bytes after
the fifth, from_packet builds exactly this shape, and every packet emitted
by the frame decoder is at least 5 bytes long. -/
theorem C5_raw_packet_layout_amended :
    (∀ bytes : List Nat,
      (RawPacketV1.mk bytes).game_id = bytes.getD 4 0 ∧
      (RawPacketV1.mk bytes).contents = bytes.drop 5) ∧
    (∀ {Packet : Type} (getGameId : InternalPacketId → Option Nat)
        (getId : Packet → InternalPacketId)
        (toBytes : Packet → Except AdapterError (List Nat)) (p : Packet)
        (gid : Nat) (body : List Nat),
      getGameId (getId p) = some gid → toBytes p = .ok body →
      fromPacketV1 getGameId getId toBytes p =
        .ok (RawPacketV1.mk (toBE 4 ((5 + body.length) % 2 ^ 32) ++ gid :: body)) ∧
      (RawPacketV1.mk (toBE 4 ((5 + body.length) % 2 ^ 32) ++ gid :: body)).game_id = gid ∧
      (RawPacketV1.mk (toBE 4 ((5 + body.length) % 2 ^ 32) ++ gid :: body)).contents = body ∧
      5 ≤ (toBE 4 ((5 + body.length) % 2 ^ 32) ++ gid :: body).length) ∧
    (∀ (st st2 : Rc4) (buf rest : List Nat) (raw : RawPacketV1),
      decodeProxy st buf = ProxyDecodeResult.packet st2 raw rest →
      5 ≤ raw.bytes.length) := by
  refine ⟨fun bytes => ⟨rfl, rfl⟩, ?_, ?_⟩
  · intro Packet getGameId getId toBytes p gid body h1 h2
    have hsplit : toBE 4 ((5 + body.length) % 2 ^ 32) ++ gid :: body
        = (toBE 4 ((5 + body.length) % 2 ^ 32) ++ [gid]) ++ body := by
      simp
    have hlen5 : (toBE 4 ((5 + body.length) % 2 ^ 32) ++ [gid]).length = 5 := by
      simp [length_toBE]
    refine ⟨?_, ?_, ?_, ?_⟩
    · rw [fromPacketV1, h1, h2]
    · show (toBE 4 ((5 + body.length) % 2 ^ 32) ++ gid :: body).getD 4 0 = gid
      rw [List.getD_append_right _ _ _ _ (by rw [length_toBE])]
      rw [length_toBE]
      simp
    · show (toBE 4 ((5 + body.length) % 2 ^ 32) ++ gid :: body).drop 5 = body
      have hdl := List.drop_left (toBE 4 ((5 + body.length) % 2 ^ 32) ++ [gid]) body
      rw [hlen5] at hdl
      rw [hsplit]
      exact hdl
    · rw [List.length_append, length_toBE]
      simp only [List.length_cons]
      omega
  · intro st st2 buf rest raw h
    simp only [decodeProxy] at h
    split at h
    · exact absurd h (by simp)
    · split at h
      · exact absurd h (by simp)
      · split at h
        · exact absurd h (by simp)
        · rename_i hge4 hge5 hgelen
          simp only [ProxyDecodeResult.packet.injEq] at h
          obtain ⟨_, hraw, _⟩ := h
          have hplen : (buf.take (fromBE (buf.take 4))).length = fromBE (buf.take 4) := by
            rw [List.length_take]
            omega
          have htk : ((buf.take (fromBE (buf.take 4))).take 5).length = 5 := by
            rw [List.length_take, hplen]
            omega
          rw [← hraw]
          simp only [List.length_append]
          omega

/-- C5 witness: the amended layout at a concrete conversion: a packet with
internal ID Ping mapped to wire ID 9 and body bytes 1, 2. -/
theorem C5_raw_packet_layout_amended_witness :
    fromPacketV1 (fun _ => some 9) (fun p : InternalPacketId => p)
        (fun _ => .ok [1, 2]) InternalPacketId.Ping =
      .ok (RawPacketV1.mk (toBE 4 ((5 + [1, 2].length) % 2 ^ 32) ++ 9 :: [1, 2])) ∧
    (RawPacketV1.mk (toBE 4 ((5 + [1, 2].length) % 2 ^ 32) ++ 9 :: [1, 2])).game_id = 9 :=
  have h := C5_raw_packet_layout_amended.2.1 (fun _ => some 9)
    (fun p : InternalPacketId => p) (fun _ => .ok [1, 2]) InternalPacketId.Ping
    9 [1, 2] rfl rfl
  ⟨h.1, h.2.1⟩

/-! ## Claim C6: frame codec round trip -/

/-- Encoding with a cipher state and decoding the produced frame with an
identical fresh copy of that state yields the packet back, provided the
total length 5 + p fits the u32 length field. -/
theorem encodeNet_decodeNet_of_small (st : Rc4) (r : RawPacketN)
    (hp : r.payload.length + 5 < 2 ^ 32) :
    ∃ st2 bytes, encodeNet st r = (st2, .ok bytes) ∧
      bytes.take 4 = toBE 4 (5 + r.payload.length) ∧
      fromBE (bytes.take 4) = 5 + r.payload.length ∧
      decodeNet st bytes = .packet st2 r [] := by
  have hp' : r.payload.length + 5 < 4294967296 := by
    have h := hp
    norm_num at h
    exact h
  have hlen : r.intoBytes.length = r.payload.length + 1 := by
    simp [RawPacketN.intoBytes]
  have hle : r.intoBytes.length ≤ 2 ^ 32 - 1 := by
    rw [hlen]
    norm_num
    omega
  have hmod : (r.intoBytes.length + 4) % 2 ^ 32 = 5 + r.payload.length := by
    rw [hlen, Nat.mod_eq_of_lt (by norm_num; omega)]
    omega
  refine ⟨(rc4Process st r.payload).1,
    toBE 4 (5 + r.payload.length) ++ r.id :: (rc4Process st r.payload).2, ?_, ?_, ?_, ?_⟩
  · simp only [encodeNet]
    rw [if_pos hle, hmod]
  · have h := List.take_left (toBE 4 (5 + r.payload.length))
      (r.id :: (rc4Process st r.payload).2)
    rwa [length_toBE] at h
  · have h := List.take_left (toBE 4 (5 + r.payload.length))
      (r.id :: (rc4Process st r.payload).2)
    rw [length_toBE] at h
    rw [h, fromBE_toBE 4 (5 + r.payload.length) (by norm_num; omega)]
  · have hblen : (toBE 4 (5 + r.payload.length) ++ r.id :: (rc4Process st r.payload).2).length
        = 5 + r.payload.length := by
      rw [List.length_append, length_toBE, List.length_cons, rc4Process_length]
      omega
    have htk4 : (toBE 4 (5 + r.payload.length) ++ r.id :: (rc4Process st r.payload).2).take 4
        = toBE 4 (5 + r.payload.length) := by
      have h := List.take_left (toBE 4 (5 + r.payload.length))
        (r.id :: (rc4Process st r.payload).2)
      rwa [length_toBE] at h
    simp only [decodeNet, htk4, fromBE_toBE 4 (5 + r.payload.length) (by norm_num; omega), hblen]
    rw [if_neg (by omega), if_neg (by omega), if_neg (by omega)]
    have htake : (toBE 4 (5 + r.payload.length) ++ r.id :: (rc4Process st r.payload).2).take
        (5 + r.payload.length) = toBE 4 (5 + r.payload.length) ++ r.id :: (rc4Process st r.payload).2 :=
      List.take_of_length_le (le_of_eq hblen)
    have hdropbuf : (toBE 4 (5 + r.payload.length) ++ r.id :: (rc4Process st r.payload).2).drop
        (5 + r.payload.length) = [] :=
      List.drop_eq_nil_of_le (le_of_eq hblen)
    rw [htake, hdropbuf]
    have hsplit : toBE 4 (5 + r.payload.length) ++ r.id :: (rc4Process st r.payload).2
        = (toBE 4 (5 + r.payload.length) ++ [r.id]) ++ (rc4Process st r.payload).2 := by
      simp
    have hlen5 : (toBE 4 (5 + r.payload.length) ++ [r.id]).length = 5 := by
      simp [length_toBE]
    have hdrop5 : (toBE 4 (5 + r.payload.length) ++ r.id :: (rc4Process st r.payload).2).drop 5
        = (rc4Process st r.payload).2 := by
      have h := List.drop_left (toBE 4 (5 + r.payload.length) ++ [r.id])
        (rc4Process st r.payload).2
      rw [hlen5] at h
      rw [hsplit]
      exact h
    have hgd : (toBE 4 (5 + r.payload.length) ++ r.id :: (rc4Process st r.payload).2).getD 4 0
        = r.id := by
      rw [List.getD_append_right _ _ _ _ (by rw [length_toBE])]
      rw [length_toBE]
      simp
    rw [hdrop5, hgd, rc4Process_involutive st r.payload]

/-- C6 (amended): for a raw packet r with payload length p such that
p + 5 fits the u32 length field, encoding with either codec of a
complementary pair freshly derived from the same 26-byte key and decoding
the produced bytes with the other codec yields r again, and the wire-level
big-endian u32 total length written equals 5 + p.  Without the bound the
encoder rejects the packet as TooLong (or the u32 length wraps), so the
claim cannot hold for every p. -/
theorem C6_frame_codec_round_trip_amended (key : List Nat) (r : RawPacketN)
    (_hkey : key.length = 26) (hp : r.payload.length + 5 < 2 ^ 32) :
    (∃ st2 bytes, encodeNet (newClient key).send r = (st2, .ok bytes) ∧
      fromBE (bytes.take 4) = 5 + r.payload.length ∧
      decodeNet (newServer key).recv bytes = .packet st2 r []) ∧
    (∃ st2 bytes, encodeNet (newServer key).send r = (st2, .ok bytes) ∧
      fromBE (bytes.take 4) = 5 + r.payload.length ∧
      decodeNet (newClient key).recv bytes = .packet st2 r []) := by
  constructor
  · obtain ⟨st2, bytes, he, _, hf, hd⟩ := encodeNet_decodeNet_of_small (newClient key).send r hp
    exact ⟨st2, bytes, he, hf, hd⟩
  · obtain ⟨st2, bytes, he, _, hf, hd⟩ := encodeNet_decodeNet_of_small (newServer key).send r hp
    exact ⟨st2, bytes, he, hf, hd⟩

/-- C6 counterexample: a raw packet whose buffer has u32::MAX bytes (wire ID
plus a payload of 2 to the 32 minus 2 bytes... here payload 2 to the 32
minus 1, buffer one longer) cannot be framed: the encoder returns TooLong
and produces no bytes, so the round trip of the claim fails for this
payload length. -/
theorem C6_counterexample_payload_too_long :
    encodeNet (newClient (List.replicate 26 0)).send
        (RawPacketN.mk 0 (List.replicate (2 ^ 32 - 1) 0))
      = ((newClient (List.replicate 26 0)).send, .error (.TooLong (2 ^ 32 + 4))) := by
  have hlen : (RawPacketN.mk 0 (List.replicate (2 ^ 32 - 1) 0)).intoBytes.length = 2 ^ 32 := by
    show ((0 : Nat) :: List.replicate (2 ^ 32 - 1) 0).length = 2 ^ 32
    rw [List.length_cons, List.length_replicate]
    norm_num
  simp only [encodeNet]
  rw [hlen]
  rw [if_neg (by norm_num)]

/-- C6 witness: the amended round trip at a concrete key (26 zero bytes)
and the concrete packet with wire ID 3 and payload bytes 1, 2. -/
theorem C6_frame_codec_round_trip_amended_witness :
    (∃ st2 bytes,
      encodeNet (newClient (List.replicate 26 0)).send (RawPacketN.mk 3 [1, 2])
        = (st2, .ok bytes) ∧
      fromBE (bytes.take 4) = 5 + (RawPacketN.mk 3 [1, 2]).payload.length ∧
      decodeNet (newServer (List.replicate 26 0)).recv bytes
        = .packet st2 (RawPacketN.mk 3 [1, 2]) []) ∧
    (∃ st2 bytes,
      encodeNet (newServer (List.replicate 26 0)).send (RawPacketN.mk 3 [1, 2])
        = (st2, .ok bytes) ∧
      fromBE (bytes.take 4) = 5 + (RawPacketN.mk 3 [1, 2]).payload.length ∧
      decodeNet (newClient (List.replicate 26 0)).recv bytes
        = .packet st2 (RawPacketN.mk 3 [1, 2]) []) :=
  C6_frame_codec_round_trip_amended (List.replicate 26 0) (RawPacketN.mk 3 [1, 2])
    (by simp) (by norm_num)

/-! ## Claim C4: decode at most once -/

theorem downcast_of_some {Packet : Type} (g : Nat → Option InternalPacketId)
    (d : InternalPacketId → List Nat → Except AdapterError Packet)
    (i : Packet → InternalPacketId) (t : InternalPacketId)
    (ap : AutoPacket Packet) (r : Except RawError Packet) (h : ap.decoded = some r) :
    downcast g d i t ap =
      ⟨if g ap.raw.game_id = some t then downcastResult i t r else none, ap, false, false⟩ := by
  unfold downcast
  cases hg : g ap.raw.game_id with
  | none => simp
  | some id =>
    by_cases hid : id = t
    · subst hid
      simp [h]
    · simp [hid, Option.some.injEq]

theorem downcast_raw_eq {Packet : Type} (g : Nat → Option InternalPacketId)
    (d : InternalPacketId → List Nat → Except AdapterError Packet)
    (i : Packet → InternalPacketId) (t : InternalPacketId) (ap : AutoPacket Packet) :
    (downcast g d i t ap).state.raw = ap.raw := by
  unfold downcast
  cases hg : g ap.raw.game_id with
  | none => rfl
  | some id =>
    by_cases hid : id = t
    · cases hd : ap.decoded <;> simp [hid, hd]
    · simp [hid]

theorem runDowncasts_of_some {Packet : Type} (g : Nat → Option InternalPacketId)
    (d : InternalPacketId → List Nat → Except AdapterError Packet)
    (i : Packet → InternalPacketId) (ts : List InternalPacketId)
    (ap : AutoPacket Packet) (r : Except RawError Packet) (h : ap.decoded = some r) :
    runDowncasts g d i ts ap = (ap, 0, 0) := by
  induction ts with
  | nil => rfl
  | cons t ts ih =>
    have hd := downcast_of_some g d i t ap r h
    simp [runDowncasts, hd, ih]

theorem runDowncasts_raw_eq {Packet : Type} (g : Nat → Option InternalPacketId)
    (d : InternalPacketId → List Nat → Except AdapterError Packet)
    (i : Packet → InternalPacketId) :
    ∀ (ts : List InternalPacketId) (ap : AutoPacket Packet),
      (runDowncasts g d i ts ap).1.raw = ap.raw := by
  intro ts
  induction ts with
  | nil => intro ap; rfl
  | cons t ts ih =>
    intro ap
    have h1 := downcast_raw_eq g d i t ap
    have h2 := ih (downcast g d i t ap).state
    simp only [runDowncasts]
    rw [h2, h1]

theorem runDowncasts_counts {Packet : Type} (g : Nat → Option InternalPacketId)
    (d : InternalPacketId → List Nat → Except AdapterError Packet)
    (i : Packet → InternalPacketId) :
    ∀ (ts : List InternalPacketId) (ap : AutoPacket Packet), ap.decoded = none →
      (runDowncasts g d i ts ap).2.1 ≤ 1 ∧
      (runDowncasts g d i ts ap).2.2 ≤ (runDowncasts g d i ts ap).2.1 := by
  intro ts
  induction ts with
  | nil =>
    intro ap _
    exact ⟨by simp [runDowncasts], by simp [runDowncasts]⟩
  | cons t ts ih =>
    intro ap h
    cases hg : g ap.raw.game_id with
    | none =>
      have hd : downcast g d i t ap = ⟨none, ap, false, false⟩ := by
        unfold downcast
        rw [hg]
      have := ih ap h
      simp only [runDowncasts, hd]
      simpa using this
    | some id =>
      by_cases hid : id = t
      · subst hid
        have hd : downcast g d i id ap =
            ⟨downcastResult i id (toPacketV1 g d ap.raw),
              { ap with decoded := some (toPacketV1 g d ap.raw) }, true,
              match toPacketV1 g d ap.raw with | .error _ => true | .ok _ => false⟩ := by
          simp [downcast, hg, h]
        have hrest := runDowncasts_of_some g d i ts
          { ap with decoded := some (toPacketV1 g d ap.raw) } (toPacketV1 g d ap.raw) rfl
        simp only [runDowncasts, hd, hrest]
        cases htp : toPacketV1 g d ap.raw <;> simp
      · have hd : downcast g d i t ap = ⟨none, ap, false, false⟩ := by
          simp [downcast, hg, hid]
        have := ih ap h
        simp only [runDowncasts, hd]
        simpa using this

/-- C4: over any sequence of plugin downcast calls on a fresh handle, the
raw packet is type-decoded at most once and a failure is logged at most
once (and only when a decode happened); once a result is cached, every
later call reuses it without decoding or logging — in particular after a
failed decode every later downcast returns absent — the wrapped raw packet
is never modified, and the pipe forwards the original raw packet at the
head of the output batch whenever no plugin cancelled, regardless of the
decode outcome. -/
theorem C4_decode_at_most_once {Packet : Type}
    (getInternalId : Nat → Option InternalPacketId)
    (decoders : InternalPacketId → List Nat → Except AdapterError Packet)
    (getId : Packet → InternalPacketId)
    (ts : List InternalPacketId) (raw : RawPacketV1) :
    (runDowncasts getInternalId decoders getId ts (AutoPacket.new raw)).2.1 ≤ 1 ∧
    (runDowncasts getInternalId decoders getId ts (AutoPacket.new raw)).2.2 ≤
      (runDowncasts getInternalId decoders getId ts (AutoPacket.new raw)).2.1 ∧
    (runDowncasts getInternalId decoders getId ts (AutoPacket.new raw)).1.raw = raw ∧
    (∀ (t : InternalPacketId) (ap : AutoPacket Packet) (e : RawError),
      ap.decoded = some (.error e) →
      downcast getInternalId decoders getId t ap = ⟨none, ap, false, false⟩) ∧
    (∀ (t : InternalPacketId) (ap : AutoPacket Packet) (p : Packet),
      ap.decoded = some (.ok p) →
      downcast getInternalId decoders getId t ap =
        ⟨if getInternalId ap.raw.game_id = some t then downcastResult getId t (.ok p)
          else none, ap, false, false⟩) ∧
    (∀ (fromPacket : Packet → Except RawError RawPacketV1) (side : PacketSide)
        (ctx : PacketContext Packet), ctx.cancelled = false →
      ∃ tail, buildQueue getId fromPacket side
          (AutoPacket.into_raw
            (runDowncasts getInternalId decoders getId ts (AutoPacket.new raw)).1) ctx
        = (side, raw) :: tail) := by
  have hcounts := runDowncasts_counts getInternalId decoders getId ts (AutoPacket.new raw) rfl
  have hraw := runDowncasts_raw_eq getInternalId decoders getId ts (AutoPacket.new raw)
  refine ⟨hcounts.1, hcounts.2, hraw, ?_, ?_, ?_⟩
  · intro t ap e h
    have hd := downcast_of_some getInternalId decoders getId t ap (.error e) h
    rw [hd]
    simp [downcastResult]
  · intro t ap p h
    exact downcast_of_some getInternalId decoders getId t ap (.ok p) h
  · intro fromPacket side ctx hcancel
    refine ⟨ctx.extra.filterMap
      (fun pkt =>
        match fromPacket pkt with
        | .ok r => some (sideForInjection getId pkt, r)
        | .error _ => none), ?_⟩
    rw [buildQueue, foldl_enqueue getId fromPacket ctx.extra, hcancel]
    rw [show AutoPacket.into_raw
        (runDowncasts getInternalId decoders getId ts (AutoPacket.new raw)).1
      = raw from hraw]
    simp

/-- C4 witness: a concrete run with two identical downcast calls on a
packet with wire ID 7 mapped to Ping decodes at most once, and a handle
already holding a failed decode result answers a matching downcast with
absent, unchanged state and no decode or log. -/
theorem C4_decode_at_most_once_witness :
    (runDowncasts (fun g => if g = 7 then some InternalPacketId.Ping else none)
        (fun id _ => .ok id) (fun p : InternalPacketId => p)
        [InternalPacketId.Ping, InternalPacketId.Ping]
        (AutoPacket.new (RawPacketV1.mk [0, 0, 0, 5, 7]))).2.1 ≤ 1 ∧
    downcast (fun g => if g = 7 then some InternalPacketId.Ping else none)
        (fun id _ => .ok id) (fun p : InternalPacketId => p) InternalPacketId.Ping
        ⟨RawPacketV1.mk [0, 0, 0, 5, 7], some (.error (.UnmappedGameId 9))⟩
      = ⟨none, ⟨RawPacketV1.mk [0, 0, 0, 5, 7], some (.error (.UnmappedGameId 9))⟩,
          false, false⟩ :=
  ⟨(C4_decode_at_most_once (fun g => if g = 7 then some InternalPacketId.Ping else none)
      (fun id _ => .ok id) (fun p : InternalPacketId => p)
      [InternalPacketId.Ping, InternalPacketId.Ping] (RawPacketV1.mk [0, 0, 0, 5, 7])).1,
   (C4_decode_at_most_once (fun g => if g = 7 then some InternalPacketId.Ping else none)
      (fun id _ => .ok id) (fun p : InternalPacketId => p)
      [InternalPacketId.Ping, InternalPacketId.Ping] (RawPacketV1.mk [0, 0, 0, 5, 7])).2.2.2.1
      InternalPacketId.Ping
      ⟨RawPacketV1.mk [0, 0, 0, 5, 7], some (.error (.UnmappedGameId 9))⟩
      (.UnmappedGameId 9) rfl⟩

/-! ## Claim C9: directory aliasing -/

theorem hmGet_cons_eq (q : List Nat × Ip) (m : HMap) (k : List Nat) (h : q.1 = k) :
    hmGet (q :: m) k = some q.2 := by
  rw [hmGet, List.find?_cons_of_pos _ (by simpa using h)]
  rfl

theorem hmGet_cons_ne (q : List Nat × Ip) (m : HMap) (k : List Nat) (h : ¬ q.1 = k) :
    hmGet (q :: m) k = hmGet m k := by
  rw [hmGet, List.find?_cons_of_neg _ (by simpa using h)]
  rfl

theorem hmInsert_cons_ne (q : List Nat × Ip) (m : HMap) (k : List Nat) (v : Ip)
    (hq : ¬ q.1 = k) :
    hmInsert (q :: m) k v = q :: hmInsert m k v := by
  simp only [hmInsert, hmContains, List.any_cons, decide_eq_false hq, Bool.false_or]
  by_cases hc : m.any (fun p => decide (p.1 = k)) = true
  · rw [if_pos hc, if_pos hc, List.map_cons, if_neg hq]
  · rw [if_neg hc, if_neg hc, List.cons_append]

theorem hmContains_eq_isSome (m : HMap) (k : List Nat) :
    hmContains m k = (hmGet m k).isSome := by
  induction m with
  | nil => rfl
  | cons q m ih =>
    by_cases hq : q.1 = k
    · rw [hmContains, List.any_cons, decide_eq_true hq, Bool.true_or,
        hmGet_cons_eq q m k hq]
      rfl
    · rw [hmContains, List.any_cons, decide_eq_false hq, Bool.false_or,
        hmGet_cons_ne q m k hq]
      exact ih

theorem hmGet_hmInsert_self (m : HMap) (k : List Nat) (v : Ip) :
    hmGet (hmInsert m k v) k = some v := by
  induction m with
  | nil =>
    rw [hmInsert, if_neg (by rw [hmContains]; simp)]
    exact hmGet_cons_eq (k, v) [] k rfl
  | cons q m ih =>
    by_cases hq : q.1 = k
    · have hc : hmContains (q :: m) k = true := by
        rw [hmContains, List.any_cons, decide_eq_true hq, Bool.true_or]
      rw [hmInsert, if_pos hc, List.map_cons, if_pos hq]
      exact hmGet_cons_eq (k, v) _ k rfl
    · rw [hmInsert_cons_ne q m k v hq, hmGet_cons_ne q _ k hq]
      exact ih

theorem hmContains_hmInsert_self (m : HMap) (k : List Nat) (v : Ip) :
    hmContains (hmInsert m k v) k = true := by
  rw [hmContains_eq_isSome, hmGet_hmInsert_self]
  rfl

theorem hmGet_mapUpdate_ne (m : HMap) (k k2 : List Nat) (v : Ip) (hne : k2 ≠ k) :
    hmGet (m.map (fun p => if p.1 = k then (k, v) else p)) k2 = hmGet m k2 := by
  induction m with
  | nil => rfl
  | cons q m ih =>
    by_cases hq : q.1 = k
    · rw [List.map_cons, if_pos hq,
        hmGet_cons_ne (k, v) _ k2 (fun h => hne h.symm),
        hmGet_cons_ne q m k2 (fun h => hne (h ▸ hq))]
      exact ih
    · rw [List.map_cons, if_neg hq]
      by_cases hq2 : q.1 = k2
      · rw [hmGet_cons_eq q _ k2 hq2, hmGet_cons_eq q m k2 hq2]
      · rw [hmGet_cons_ne q _ k2 hq2, hmGet_cons_ne q m k2 hq2]
        exact ih

theorem hmGet_hmInsert_ne (m : HMap) (k k2 : List Nat) (v : Ip) (hne : k2 ≠ k) :
    hmGet (hmInsert m k v) k2 = hmGet m k2 := by
  induction m with
  | nil =>
    rw [hmInsert, if_neg (by rw [hmContains]; simp)]
    rw [List.nil_append, hmGet_cons_ne (k, v) [] k2 (fun h => hne h.symm)]
  | cons q m ih =>
    by_cases hq : q.1 = k
    · have hc : hmContains (q :: m) k = true := by
        rw [hmContains, List.any_cons, decide_eq_true hq, Bool.true_or]
      rw [hmInsert, if_pos hc, List.map_cons, if_pos hq,
        hmGet_cons_ne (k, v) _ k2 (fun h => hne h.symm),
        hmGet_mapUpdate_ne m k k2 v hne,
        hmGet_cons_ne q m k2 (fun h => hne (h ▸ hq))]
    · rw [hmInsert_cons_ne q m k v hq]
      by_cases hq2 : q.1 = k2
      · rw [hmGet_cons_eq q _ k2 hq2, hmGet_cons_eq q m k2 hq2]
      · rw [hmGet_cons_ne q _ k2 hq2, hmGet_cons_ne q m k2 hq2]
        exact ih


/-- C9: directory construction inserts each entry under its lowercased full
name, and under the alias produced by the fixed substitution chain when that
alias is not already taken (a colliding alias never overwrites the existing
entry); lookup of either key returns the entry's IP, and socket lookup
pairs it with fixed port 2050 — concretely, after new with the single entry
USEast mapped to some ip, both useast and use resolve to ip. -/
theorem C9_directory_aliasing :
    (getIp (serverListNew [(strBytes "USEast", Ip.mk 1 2 3 4)]) (strBytes "useast")
        = some (Ip.mk 1 2 3 4) ∧
      getIp (serverListNew [(strBytes "USEast", Ip.mk 1 2 3 4)]) (strBytes "use")
        = some (Ip.mk 1 2 3 4) ∧
      getSocket (serverListNew [(strBytes "USEast", Ip.mk 1 2 3 4)]) (strBytes "use")
        = some (Ip.mk 1 2 3 4, 2050) ∧
      getSocket (serverListNew [(strBytes "USEast", Ip.mk 1 2 3 4)]) (strBytes "useast")
        = some (Ip.mk 1 2 3 4, 2050)) ∧
    (∀ (sl : HMap) (name : List Nat) (ip : Ip),
      hmContains (hmInsert sl (rustLower name) ip) (abbreviate (rustLower name)) = true →
      serverListEntry sl (name, ip) = hmInsert sl (rustLower name) ip) ∧
    (∀ (sl : HMap) (name : List Nat) (ip : Ip),
      hmGet (serverListEntry sl (name, ip)) (rustLower name) = some ip) ∧
    (∀ (sl : HMap) (name : List Nat) (ip : Ip),
      hmContains (hmInsert sl (rustLower name) ip) (abbreviate (rustLower name)) = false →
      hmGet (serverListEntry sl (name, ip)) (abbreviate (rustLower name)) = some ip) ∧
    abbreviate (strBytes "useast") = strBytes "use" := by
  refine ⟨?_, ?_, ?_, ?_, by decide⟩
  · refine ⟨by decide, by decide, by decide, by decide⟩
  · intro sl name ip h
    rw [serverListEntry]
    dsimp only
    simp only [h, if_true]
  · intro sl name ip
    rw [serverListEntry]
    dsimp only
    by_cases h : hmContains (hmInsert sl (rustLower name) ip) (abbreviate (rustLower name)) = true
    · simp only [h, if_true]
      exact hmGet_hmInsert_self sl (rustLower name) ip
    · simp only [h, if_false]
      rw [if_neg Bool.false_ne_true]
      by_cases hab : abbreviate (rustLower name) = rustLower name
      · rw [hab] at h
        exact absurd (hmContains_hmInsert_self sl (rustLower name) ip) h
      · rw [hmGet_hmInsert_ne _ _ _ _ (fun he => hab he.symm)]
        exact hmGet_hmInsert_self sl (rustLower name) ip
  · intro sl name ip h
    rw [serverListEntry]
    dsimp only
    rw [if_neg (by rw [h]; exact Bool.false_ne_true)]
    exact hmGet_hmInsert_self _ _ ip

/-- C9 witness: the construction facts at the concrete entry USEast mapped
to 1.2.3.4, with the alias use not yet present. -/
theorem C9_directory_aliasing_witness :
    getIp (serverListNew [(strBytes "USEast", Ip.mk 1 2 3 4)]) (strBytes "use")
      = some (Ip.mk 1 2 3 4) ∧
    hmGet (serverListEntry [] (strBytes "USEast", Ip.mk 1 2 3 4))
        (abbreviate (rustLower (strBytes "USEast"))) = some (Ip.mk 1 2 3 4) :=
  ⟨C9_directory_aliasing.1.2.1,
   C9_directory_aliasing.2.2.2.1 [] (strBytes "USEast") (Ip.mk 1 2 3 4) (by decide)⟩

/-! ## Claim C10: the manual Pic adapter -/

/-- C10 counterexample: the claim says decoding succeeds if and only if at
least w * h * 4 bytes remain.  The requirement is computed in usize
arithmetic, which wraps: for the 8-byte input declaring w = h = 2 ^ 31 the
wrapped requirement is 0, so decoding succeeds with an empty bitmap even
though w * h * 4 = 2 ^ 66 bytes are certainly not available (a debug build
would abort on the multiplication overflow instead of failing with
insufficient-data). -/
theorem C10_counterexample_usize_wrap :
    picGet (toBE 4 (2 ^ 31) ++ toBE 4 (2 ^ 31))
      = .ok (⟨2 ^ 31, 2 ^ 31, []⟩, []) ∧
    ([] : List Nat).length < 2 ^ 31 * 2 ^ 31 * 4 := by
  constructor
  · decide
  · norm_num

/-- C10 (amended): decoding reads two big-endian u32 dimensions and then
succeeds if and only if at least (w * h * 4 mod 2 ^ 64) bytes remain — the
requirement is computed in wrapping usize arithmetic, and equals w * h * 4
whenever that product fits 64 bits — consuming exactly that many bytes as
bitmap data and failing with insufficient-data otherwise; encoding never
fails and writes w, h and the whole bitmap_data buffer without checking its
length, so encode-then-decode can yield a different message when the
lengths mismatch, witnessed by the Pic with w = h = 0 and a 1-byte
bitmap. -/
theorem C10_pic_adapter_amended :
    (∀ (w h : Nat) (t : List Nat), w < 2 ^ 32 → h < 2 ^ 32 →
      picGet (toBE 4 w ++ toBE 4 h ++ t) =
        if w * h * 4 % 2 ^ 64 ≤ t.length then
          .ok (⟨w, h, t.take (w * h * 4 % 2 ^ 64)⟩, t.drop (w * h * 4 % 2 ^ 64))
        else .error (.InsufficientData t.length (w * h * 4 % 2 ^ 64))) ∧
    (∀ (p : Pic) (sink : List Nat),
      picPut p sink = (sink ++ toBE 4 p.w ++ toBE 4 p.h ++ p.bitmap_data, none)) ∧
    (picGet ((picPut ⟨0, 0, [1]⟩ []).1) = .ok (⟨0, 0, []⟩, [1]) ∧
      (⟨0, 0, []⟩ : Pic) ≠ ⟨0, 0, [1]⟩) := by
  refine ⟨?_, ?_, by decide, by decide⟩
  · intro w h t hw hh
    have hw2 : w < 256 ^ 4 := by norm_num; omega
    have hh2 : h < 256 ^ 4 := by norm_num; omega
    have h1 := (goodCodec_prim 4).2.1 w (toBE 4 h ++ t) hw2
    have h2 := (goodCodec_prim 4).2.1 h t hh2
    rw [show (primCodec 4).get = getPrim 4 from rfl] at h1 h2
    rw [picGet, List.append_assoc, h1]
    dsimp only
    rw [h2]
  · intro p sink
    rw [picPut]
    simp [putPrim]

/-- C10 witness: the amended decode characterization at the concrete
dimensions 1 by 1 with a 5-byte tail: exactly 4 bytes are consumed as
bitmap data. -/
theorem C10_pic_adapter_amended_witness :
    picGet (toBE 4 1 ++ toBE 4 1 ++ [9, 9, 9, 9, 5]) =
      if 1 * 1 * 4 % 2 ^ 64 ≤ [9, 9, 9, 9, 5].length then
        .ok (⟨1, 1, [9, 9, 9, 9, 5].take (1 * 1 * 4 % 2 ^ 64)⟩,
          [9, 9, 9, 9, 5].drop (1 * 1 * 4 % 2 ^ 64))
      else .error (.InsufficientData [9, 9, 9, 9, 5].length (1 * 1 * 4 % 2 ^ 64)) :=
  C10_pic_adapter_amended.1 1 1 [9, 9, 9, 9, 5] (by norm_num) (by norm_num)

end Realmpipe
